import Mathlib

/-!
Verification of the ForceAR python backend's ingestion-and-fan-out pipeline
against its specification.

The two scripts are embedded shallowly:

* `src/demo_ble_to_foxglove.py` — `on_notify` (length-guarded decode) feeding
  `FoxgloveBridge.log_frame` (one raw message plus twelve per-channel scalar
  messages, all stamped with a single `time.time()` reading).
* `src/demo_bluetooth.py` — `BLECollector.callback` (unguarded
  `struct.unpack`, so a wrong-sized buffer raises `struct.error`), appending
  timestamped rows to an unbounded list.

Bytes are `Nat` values below 256; a Python `float` obtained from unpacking a
binary32 word is modelled by the word's exact IEEE-754 value content (`FVal`):
widening binary32 → binary64 is exact, so the bit pattern together with its
value classification is a faithful model of the double Python holds.  Wall
clock readings (`time.time()`) are modelled as rationals, exact values of the
binary64 readings.
-/

/-- Number of load-cell channels (`N_CH = 12` in both scripts). -/
def N_CH : Nat := 12

/-- Assemble one 32-bit word from four bytes, little-endian
(byte 0 is least significant), as `struct.unpack "<f"` reads them. -/
def word32OfBytesLE (b0 b1 b2 b3 : Nat) : Nat :=
  b0 + 2 ^ 8 * b1 + 2 ^ 16 * b2 + 2 ^ 24 * b3

/-- Split a byte string into consecutive little-endian 32-bit words,
four bytes per word (the body of `struct.unpack "<ffffffffffff"`).
A trailing fragment of fewer than four bytes is never consumed
(the callers only apply this to exact multiples of four). -/
def wordsOfBytesLE : List Nat → List Nat
  | b0 :: b1 :: b2 :: b3 :: rest => word32OfBytesLE b0 b1 b2 b3 :: wordsOfBytesLE rest
  | _ => []

/-- Sign bit of a binary32 word. -/
def f32Sign (w : Nat) : Nat := w / 2 ^ 31 % 2

/-- Biased exponent field of a binary32 word. -/
def f32Exp (w : Nat) : Nat := w / 2 ^ 23 % 2 ^ 8

/-- Fraction field of a binary32 word. -/
def f32Frac (w : Nat) : Nat := w % 2 ^ 23

/-- The value content of an IEEE-754 binary32 datum, exactly as it survives
the widening to binary64 that `struct.unpack` performs: a NaN keeps its sign
and payload, an infinity its sign, and a finite value its sign and its exact
magnitude.  For a finite datum `mag` is the magnitude scaled by `2 ^ 149`
(the reciprocal of the smallest positive subnormal), a natural number for
every finite binary32 value; the sign is kept separately so that `-0.0` and
`+0.0` stay distinct, as they do in the widened double. -/
inductive FVal where
  | nan (sign payload : Nat)
  | inf (sign : Nat)
  | finite (sign mag : Nat)
deriving DecidableEq, Repr

/-- Decode a binary32 word into its exact value content.  Total: every bit
pattern is accepted, no magnitude validation or rounding happens anywhere. -/
def f32ValOfWord (w : Nat) : FVal :=
  if f32Exp w = 255 then
    if f32Frac w = 0 then .inf (f32Sign w) else .nan (f32Sign w) (f32Frac w)
  else if f32Exp w = 0 then
    .finite (f32Sign w) (f32Frac w)
  else
    .finite (f32Sign w) ((2 ^ 23 + f32Frac w) * 2 ^ (f32Exp w - 1))

/-- The four bytes of a 32-bit word, little-endian.  Modelled from the spec:
re-encoding a decoded float as a little-endian IEEE-754 32-bit value
(`struct.pack "<f"`); no code under `src/` performs this encoding, the spec's
round-trip property requires it. -/
def bytesOfWord32LE (w : Nat) : List Nat :=
  [w % 2 ^ 8, w / 2 ^ 8 % 2 ^ 8, w / 2 ^ 16 % 2 ^ 8, w / 2 ^ 24 % 2 ^ 8]

/-- Modelled from the spec: re-encode a word sequence as the concatenation of
the words' little-endian bytes (`struct.pack "<ffffffffffff"`). -/
def packWordsLE (ws : List Nat) : List Nat :=
  ws.flatMap bytesOfWord32LE

/-- The frame decoder of `on_notify` in `demo_ble_to_foxglove.py`:
`if len(data) != unpacker.size: return` — any buffer whose length is not
`N_CH * 4` is dropped (`none`), otherwise the twelve words are unpacked.
Total, hence it never raises. -/
def onNotifyDecode (data : List Nat) : Option (List Nat) :=
  if data.length = N_CH * 4 then some (wordsOfBytesLE data) else none

/-- The lone Python exception the embedding distinguishes: `struct.error`,
raised by `struct.unpack` when the buffer length differs from the format
size. -/
inductive PyExc where
  | structError
deriving DecidableEq, Repr

/-- The call struct.unpack of twelve little-endian floats as performed by
`BLECollector.callback` in `demo_bluetooth.py`: no length guard in the
caller, so a buffer whose length is not exactly `N_CH * 4` raises
`struct.error`. -/
def structUnpackE (data : List Nat) : Except PyExc (List Nat) :=
  if data.length = N_CH * 4 then .ok (wordsOfBytesLE data) else .error .structError

/-- State of `BLECollector` (`demo_bluetooth.py`): the unbounded `rows` list
of `(t, vals)` tuples and the construction-time wall clock reading `t0`. -/
structure BLECollector where
  rows : List (ℚ × List Nat)
  t0 : ℚ
deriving DecidableEq, Repr

/-- The method `BLECollector.callback`: unpack the buffer (raising `struct.error` on a
size mismatch), read the wall clock (`now` is the `time.time()` value at this
callback), and append `(now - t0, vals)` to `rows`. -/
def BLECollector.callback (c : BLECollector) (now : ℚ) (data : List Nat) :
    Except PyExc BLECollector :=
  match structUnpackE data with
  | .error e => .error e
  | .ok vals => .ok { c with rows := c.rows ++ [(now - c.t0, vals)] }

/-- Run the collector over a sequence of notifications, each a pair of the
wall clock reading at that callback and the raw buffer.  A callback that
raises leaves the state unchanged (the exception aborts the callback before
`rows.append`; the event loop reports it and keeps delivering). -/
def BLECollector.run (c : BLECollector) : List (ℚ × List Nat) → BLECollector
  | [] => c
  | (now, data) :: rest =>
    (match c.callback now data with
     | .error _ => c
     | .ok c' => c').run rest

/-- The timestamps of the collected rows, in row order (the `t` column of
the CSV that `main` writes from `collector.rows`). -/
def rowTimes (c : BLECollector) : List ℚ :=
  c.rows.map Prod.fst

/-- One message published by the Foxglove bridge: either the aggregated
`/load_cells/raw` message `{t, data}` or a scalar `/load_cells/ch<chan>`
message `{t, value}`. -/
inductive Msg where
  | raw (t : ℚ) (data : List Nat)
  | scalar (chan : Nat) (t : ℚ) (value : Nat)
deriving DecidableEq, Repr

/-- The timestamp field `t` of a published message. -/
def msgTime : Msg → ℚ
  | .raw t _ => t
  | .scalar _ t _ => t

/-- The scalar messages published by the `for i, v in enumerate(values)` loop
of `log_frame`, starting at enumeration index `n`: the value at index `i`
goes to topic `/load_cells/ch<i+1>`, stamped with the single reading `now`. -/
def scalarMsgsFrom (now : ℚ) (n : Nat) : List Nat → List Msg
  | [] => []
  | v :: vs => Msg.scalar (n + 1) now v :: scalarMsgsFrom now (n + 1) vs

/-- The method `FoxgloveBridge.log_frame`: read the wall clock once (`now`), publish the
aggregated raw message, then one scalar message per channel, all carrying the
same `now`.  The returned list is the messages in emission order. -/
def logFrame (now : ℚ) (values : List Nat) : List Msg :=
  Msg.raw now values :: scalarMsgsFrom now 0 values

/-- Observable state of the `on_notify` handler of
`demo_ble_to_foxglove.py`: the messages published so far, and the number of
decode errors the handler has counted.  The source keeps no decode-error
counter at all — a wrong-sized buffer is dropped by a bare `return` — so no
branch of the handler ever updates `errCount`. -/
structure NotifyState where
  published : List Msg
  errCount : Nat
deriving DecidableEq, Repr

/-- The handler `on_notify`: drop the buffer silently when its length is not
`unpacker.size = N_CH * 4` (no counter is incremented), otherwise unpack and
hand the values to `bridge.log_frame`, which reads the clock (`now`). -/
def onNotify (s : NotifyState) (now : ℚ) (data : List Nat) : NotifyState :=
  match onNotifyDecode data with
  | none => s
  | some vals => { s with published := s.published ++ logFrame now vals }

/-- Run the `on_notify` handler over a sequence of notifications (clock
reading at the `log_frame` call, raw buffer). -/
def onNotifyRun (s : NotifyState) : List (ℚ × List Nat) → NotifyState
  | [] => s
  | (now, data) :: rest => onNotifyRun (onNotify s now data) rest

/-- A 48-byte all-zero buffer: a valid frame (twelve `0.0` channels). -/
def v48 : List Nat := List.replicate 48 0

/-- A 40-byte buffer: a malformed frame (ten floats' worth of bytes). -/
def v40 : List Nat := List.replicate 40 1

example : onNotifyDecode v40 = none := by decide
example : (wordsOfBytesLE v48).length = 12 := by decide
example : structUnpackE v40 = .error .structError := by rfl

/-- On a valid frame, `BLECollector.callback` appends one timestamped row. -/
lemma BLECollector.callback_valid (c : BLECollector) (now : ℚ) (data : List Nat)
    (h : data.length = N_CH * 4) :
    c.callback now data =
      .ok { rows := c.rows ++ [(now - c.t0, wordsOfBytesLE data)], t0 := c.t0 } := by
  simp [BLECollector.callback, structUnpackE, h]

/-- Running the collector over valid frames appends one row per frame, in
arrival order, and leaves `t0` untouched. -/
lemma BLECollector.run_valid (inputs : List (ℚ × List Nat)) :
    ∀ c : BLECollector, (∀ p ∈ inputs, (p.2).length = N_CH * 4) →
    (c.run inputs).rows
      = c.rows ++ inputs.map (fun p => (p.1 - c.t0, wordsOfBytesLE p.2)) ∧
    (c.run inputs).t0 = c.t0 := by
  induction inputs with
  | nil => intro c _; simp [BLECollector.run]
  | cons p rest ih =>
    intro c h
    obtain ⟨now, data⟩ := p
    have hlen : data.length = N_CH * 4 := h (now, data) (by simp)
    have hrest : ∀ q ∈ rest, (q.2).length = N_CH * 4 := fun q hq => h q (by simp [hq])
    have hcb := BLECollector.callback_valid c now data hlen
    obtain ⟨h1, h2⟩ :=
      ih { rows := c.rows ++ [(now - c.t0, wordsOfBytesLE data)], t0 := c.t0 } hrest
    simp only [BLECollector.run, hcb]
    exact ⟨by simpa using h1, by simpa using h2⟩

/-- Running `on_notify` over valid frames publishes each frame's thirteen
messages in arrival order and never touches the (nonexistent) error
counter. -/
lemma onNotifyRun_valid (inputs : List (ℚ × List Nat)) :
    ∀ s : NotifyState, (∀ p ∈ inputs, (p.2).length = N_CH * 4) →
    (onNotifyRun s inputs).published
      = s.published ++ inputs.flatMap (fun p => logFrame p.1 (wordsOfBytesLE p.2)) ∧
    (onNotifyRun s inputs).errCount = s.errCount := by
  induction inputs with
  | nil => intro s _; simp [onNotifyRun]
  | cons p rest ih =>
    intro s h
    obtain ⟨now, data⟩ := p
    have hlen : data.length = N_CH * 4 := h (now, data) (by simp)
    have hrest : ∀ q ∈ rest, (q.2).length = N_CH * 4 := fun q hq => h q (by simp [hq])
    have hstep : onNotify s now data
        = { s with published := s.published ++ logFrame now (wordsOfBytesLE data) } := by
      simp [onNotify, onNotifyDecode, hlen]
    obtain ⟨h1, h2⟩ :=
      ih { s with published := s.published ++ logFrame now (wordsOfBytesLE data) } hrest
    simp only [onNotifyRun, hstep]
    exact ⟨by simpa using h1, by simpa using h2⟩

/-- The handler `on_notify` leaves the handler state untouched on a wrong-sized buffer. -/
lemma onNotify_bad (s : NotifyState) (now : ℚ) (data : List Nat)
    (h : data.length ≠ N_CH * 4) : onNotify s now data = s := by
  simp [onNotify, onNotifyDecode, h]

/-- C1. The claim says both notification handlers reject a wrong-sized
buffer without throwing.  `on_notify` does; `BLECollector.callback` does
not: `struct.unpack` raises `struct.error` on the 40-byte buffer `v40`
because the callback performs no length check.  This closed theorem
exhibits the thrown exception, refuting the claim as stated. -/
theorem C1_counterexample :
    (BLECollector.mk [] 0).callback 0 v40 = Except.error PyExc.structError := by
  rfl

/-- C1 (amended): for every buffer whose length differs from `N_CH * 4`,
`on_notify` drops the buffer silently — the handler state is unchanged and,
being a total function, it never throws — while `BLECollector.callback`
raises `struct.error` (its `struct.unpack` call has no length guard). -/
theorem C1_amended_behavior (data : List Nat) (s : NotifyState) (now : ℚ)
    (c : BLECollector) (r : ℚ) (h : data.length ≠ N_CH * 4) :
    onNotify s now data = s ∧ onNotifyDecode data = none ∧
    c.callback r data = Except.error PyExc.structError := by
  refine ⟨onNotify_bad s now data h, ?_, ?_⟩
  · simp [onNotifyDecode, h]
  · simp [BLECollector.callback, structUnpackE, h]

/-- C1 witness: the amended behavior at the concrete 40-byte buffer. -/
theorem C1_witness :
    onNotify ⟨[], 0⟩ 0 v40 = ⟨[], 0⟩ ∧ onNotifyDecode v40 = none ∧
    (BLECollector.mk [] 0).callback 0 v40 = Except.error PyExc.structError :=
  C1_amended_behavior v40 ⟨[], 0⟩ 0 (BLECollector.mk [] 0) 0 (by decide)

/-- C2. The claim says a later sample's timestamp is never earlier than its
predecessor's even under wall-clock regressions.  Both scripts stamp with
`time.time()`, the wall clock: with clock readings 10 then 5 (a regression)
the collector records timestamps `[10, 5]`, and the second sample's
timestamp is strictly earlier than its predecessor's. -/
theorem C2_counterexample :
    rowTimes ((BLECollector.mk [] 0).run [(10, v48), (5, v48)]) = [10, 5] ∧
    ¬ ((10 : ℚ) ≤ 5) := by
  constructor
  · have h := BLECollector.run_valid [(10, v48), (5, v48)] (BLECollector.mk [] 0)
      (by intro p hp; simp [v48] at hp ⊢; rcases hp with h | h <;> simp [h, N_CH])
    simp only [rowTimes, h.1]
    norm_num
  · norm_num

/-- C2 (amended): the sample clock is the wall clock (`time.time()`), so the
recorded timestamps are nondecreasing (resp. strictly increasing) exactly
when the wall-clock readings at the callbacks are; a wall-clock regression
is reproduced in the samples rather than suppressed. -/
theorem C2_monotone_clock (t0 : ℚ) (inputs : List (ℚ × List Nat))
    (h : ∀ p ∈ inputs, (p.2).length = N_CH * 4) :
    (List.Chain' (· ≤ ·) (inputs.map Prod.fst) →
      List.Chain' (· ≤ ·) (rowTimes (BLECollector.run ⟨[], t0⟩ inputs))) ∧
    (List.Chain' (· < ·) (inputs.map Prod.fst) →
      List.Chain' (· < ·) (rowTimes (BLECollector.run ⟨[], t0⟩ inputs))) := by
  obtain ⟨hrows, -⟩ := BLECollector.run_valid inputs ⟨[], t0⟩ h
  have htimes : rowTimes (BLECollector.run ⟨[], t0⟩ inputs)
      = inputs.map (fun p => p.1 - t0) := by
    simp [rowTimes, hrows]
  rw [htimes]
  constructor
  · intro hc
    rw [List.chain'_map] at hc ⊢
    exact hc.imp fun a b hab => sub_le_sub_right hab t0
  · intro hc
    rw [List.chain'_map] at hc ⊢
    exact hc.imp fun a b hab => sub_lt_sub_right hab t0

/-- C2 witness: strictly increasing readings 1, 2 give strictly increasing
recorded timestamps. -/
theorem C2_witness :
    List.Chain' (· < ·) (rowTimes (BLECollector.run ⟨[], 0⟩ [(1, v48), (2, v48)])) := by
  have h := C2_monotone_clock 0 [(1, v48), (2, v48)]
    (by intro p hp; simp [v48] at hp ⊢; rcases hp with h | h <;> simp [h, N_CH])
  exact h.2 (by simp)

/-- C3. The claim says that with a stalled consumer and queue capacity K,
dispatching K+M samples leaves exactly K queued and M dropped.  The
collector's buffer (`rows`) is unbounded and nothing is ever dropped: with
K = 1 and M = 1, after dispatching 2 samples the buffer holds 2 samples,
not K = 1. -/
theorem C3_counterexample :
    ((BLECollector.mk [] 0).run [(1, v48), (2, v48)]).rows.length = 2 ∧
    ((BLECollector.mk [] 0).run [(1, v48), (2, v48)]).rows.length ≠ 1 := by
  have h := BLECollector.run_valid [(1, v48), (2, v48)] (BLECollector.mk [] 0)
    (by intro p hp; simp [v48] at hp ⊢; rcases hp with h | h <;> simp [h, N_CH])
  simp [h.1]

/-- C3 (amended): the sink buffer is unbounded — there is no capacity, no
drop policy and no drop counter.  With a stalled consumer (nothing ever
removes rows), after dispatching any n valid samples the buffer holds all
n of them, so per-sink buffered memory grows without bound. -/
theorem C3_unbounded_buffer (t0 : ℚ) (inputs : List (ℚ × List Nat))
    (h : ∀ p ∈ inputs, (p.2).length = N_CH * 4) :
    (BLECollector.run ⟨[], t0⟩ inputs).rows.length = inputs.length := by
  obtain ⟨hrows, -⟩ := BLECollector.run_valid inputs ⟨[], t0⟩ h
  simp [hrows]

/-- C3 witness: three valid frames leave three buffered rows. -/
theorem C3_witness :
    (BLECollector.run ⟨[], 0⟩ [(1, v48), (2, v48), (3, v48)]).rows.length = 3 :=
  C3_unbounded_buffer 0 [(1, v48), (2, v48), (3, v48)]
    (by intro p hp; simp [v48] at hp ⊢; rcases hp with h | h | h <;> simp [h, N_CH])

/-- C6: a healthy sink receives the samples in exactly dispatch order with
no gaps and no reordering.  Both sinks are healthy by construction (neither
has a queue that can fill): the collector's rows are exactly the dispatched
frames, decoded and timestamped, in arrival order, and the bridge publishes
each frame's messages in arrival order. -/
theorem C6_order_preserved (t0 : ℚ) (inputs : List (ℚ × List Nat))
    (h : ∀ p ∈ inputs, (p.2).length = N_CH * 4) :
    (BLECollector.run ⟨[], t0⟩ inputs).rows
      = inputs.map (fun p => (p.1 - t0, wordsOfBytesLE p.2)) ∧
    (onNotifyRun ⟨[], 0⟩ inputs).published
      = inputs.flatMap (fun p => logFrame p.1 (wordsOfBytesLE p.2)) := by
  obtain ⟨h1, -⟩ := BLECollector.run_valid inputs ⟨[], t0⟩ h
  obtain ⟨h2, -⟩ := onNotifyRun_valid inputs ⟨[], 0⟩ h
  exact ⟨by simpa using h1, by simpa using h2⟩

/-- One word is produced for every four bytes. -/
lemma wordsOfBytesLE_length : ∀ bs : List Nat, (wordsOfBytesLE bs).length = bs.length / 4
  | [] => by simp [wordsOfBytesLE]
  | [_] => by simp [wordsOfBytesLE]
  | [_, _] => by simp [wordsOfBytesLE]
  | [_, _, _] => by simp [wordsOfBytesLE]
  | _ :: _ :: _ :: _ :: rest => by
    have ih := wordsOfBytesLE_length rest
    simp only [wordsOfBytesLE, List.length_cons, ih]
    omega

/-- Dropping an index past a four-byte group. -/
lemma getElem?_cons4 (a b c d : Nat) (l : List Nat) (k : Nat) :
    (a :: b :: c :: d :: l)[k + 4]? = l[k]? := by
  show (a :: b :: c :: d :: l)[k + 3 + 1]? = l[k]?
  rw [List.getElem?_cons_succ]
  show (b :: c :: d :: l)[k + 2 + 1]? = l[k]?
  rw [List.getElem?_cons_succ]
  show (c :: d :: l)[k + 1 + 1]? = l[k]?
  rw [List.getElem?_cons_succ]
  show (d :: l)[k + 0 + 1]? = l[k]?
  exact List.getElem?_cons_succ

/-- The i-th decoded word is assembled from bytes 4i, 4i+1, 4i+2, 4i+3 of
the buffer, little-endian. -/
lemma wordsOfBytesLE_get? : ∀ (i : Nat) (bs : List Nat), 4 * i + 3 < bs.length →
    ∃ b0 b1 b2 b3, bs[4 * i]? = some b0 ∧ bs[4 * i + 1]? = some b1 ∧
      bs[4 * i + 2]? = some b2 ∧ bs[4 * i + 3]? = some b3 ∧
      (wordsOfBytesLE bs)[i]? = some (word32OfBytesLE b0 b1 b2 b3) := by
  intro i
  induction i with
  | zero =>
    intro bs h
    rcases bs with - | ⟨b0, - | ⟨b1, - | ⟨b2, - | ⟨b3, rest⟩⟩⟩⟩ <;> simp at h
    refine ⟨b0, b1, b2, b3, ?_, ?_, ?_, ?_, ?_⟩ <;> simp [wordsOfBytesLE]
  | succ i ih =>
    intro bs h
    rcases bs with - | ⟨b0, - | ⟨b1, - | ⟨b2, - | ⟨b3, rest⟩⟩⟩⟩ <;> simp at h <;>
      try omega
    obtain ⟨c0, c1, c2, c3, h0, h1, h2, h3, hw⟩ := ih rest (by omega)
    have e0 : 4 * (i + 1) = 4 * i + 4 := by omega
    have e1 : 4 * (i + 1) + 1 = 4 * i + 1 + 4 := by omega
    have e2 : 4 * (i + 1) + 2 = 4 * i + 2 + 4 := by omega
    have e3 : 4 * (i + 1) + 3 = 4 * i + 3 + 4 := by omega
    refine ⟨c0, c1, c2, c3, ?_, ?_, ?_, ?_, ?_⟩
    · rw [e0, getElem?_cons4]; exact h0
    · rw [e1, getElem?_cons4]; exact h1
    · rw [e2, getElem?_cons4]; exact h2
    · rw [e3, getElem?_cons4]; exact h3
    · show (word32OfBytesLE b0 b1 b2 b3 :: wordsOfBytesLE rest)[i + 1]? = _
      rw [List.getElem?_cons_succ]; exact hw

/-- A 32-bit word is determined by its sign, exponent and fraction fields. -/
lemma f32_word_eq_of_fields {w1 w2 : Nat} (h1 : w1 < 2 ^ 32) (h2 : w2 < 2 ^ 32)
    (hs : f32Sign w1 = f32Sign w2) (he : f32Exp w1 = f32Exp w2)
    (hf : f32Frac w1 = f32Frac w2) : w1 = w2 := by
  simp only [f32Sign, f32Exp, f32Frac] at hs he hf
  norm_num at hs he hf h1 h2
  omega

/-- Significand-times-power encodings of normal binary32 magnitudes are
unique: equal scaled magnitudes force equal exponents and fractions. -/
lemma f32_mag_inj {e1 f1 e2 f2 : Nat} (hf1 : f1 < 2 ^ 23) (hf2 : f2 < 2 ^ 23)
    (h : (2 ^ 23 + f1) * 2 ^ e1 = (2 ^ 23 + f2) * 2 ^ e2) : e1 = e2 ∧ f1 = f2 := by
  rcases Nat.lt_trichotomy e1 e2 with hlt | heq | hgt
  · exfalso
    obtain ⟨d, rfl⟩ : ∃ d, e2 = e1 + (d + 1) := ⟨e2 - e1 - 1, by omega⟩
    have h' : (2 ^ 23 + f1) * 2 ^ e1 = (2 ^ 23 + f2) * 2 ^ (d + 1) * 2 ^ e1 := by
      rw [h]; ring
    have hcancel := Nat.eq_of_mul_eq_mul_right (Nat.two_pow_pos e1) h'
    have hge : 2 ^ 23 * 2 ≤ (2 ^ 23 + f2) * 2 ^ (d + 1) :=
      Nat.mul_le_mul (by omega) (by
        calc 2 = 2 ^ 1 := rfl
        _ ≤ 2 ^ (d + 1) := Nat.pow_le_pow_right (by omega) (by omega))
    rw [← hcancel] at hge
    omega
  · subst heq
    have := Nat.eq_of_mul_eq_mul_right (Nat.two_pow_pos e1) h
    omega
  · exfalso
    obtain ⟨d, rfl⟩ : ∃ d, e1 = e2 + (d + 1) := ⟨e1 - e2 - 1, by omega⟩
    have h' : (2 ^ 23 + f1) * 2 ^ (d + 1) * 2 ^ e2 = (2 ^ 23 + f2) * 2 ^ e2 := by
      rw [← h]; ring
    have hcancel := Nat.eq_of_mul_eq_mul_right (Nat.two_pow_pos e2) h'
    have hge : 2 ^ 23 * 2 ≤ (2 ^ 23 + f1) * 2 ^ (d + 1) :=
      Nat.mul_le_mul (by omega) (by
        calc 2 = 2 ^ 1 := rfl
        _ ≤ 2 ^ (d + 1) := Nat.pow_le_pow_right (by omega) (by omega))
    rw [hcancel] at hge
    omega

/-- A subnormal magnitude is strictly below every normal magnitude. -/
lemma f32_subnormal_lt_normal {f1 e f2 : Nat} (hf1 : f1 < 2 ^ 23) :
    f1 ≠ (2 ^ 23 + f2) * 2 ^ e := by
  intro h
  have hge : 2 ^ 23 * 1 ≤ (2 ^ 23 + f2) * 2 ^ e :=
    Nat.mul_le_mul (by omega) Nat.one_le_two_pow
  rw [← h] at hge
  omega

/-- The decoded value content determines the 32-bit word: `f32ValOfWord`
never collapses two bit patterns, i.e. the widening to double precision is
exact and performs no rounding. -/
lemma f32ValOfWord_inj {w1 w2 : Nat} (h1 : w1 < 2 ^ 32) (h2 : w2 < 2 ^ 32)
    (h : f32ValOfWord w1 = f32ValOfWord w2) : w1 = w2 := by
  unfold f32ValOfWord at h
  have hb1 : f32Frac w1 < 2 ^ 23 := Nat.mod_lt _ (by norm_num)
  have hb2 : f32Frac w2 < 2 ^ 23 := Nat.mod_lt _ (by norm_num)
  by_cases e1 : f32Exp w1 = 255 <;> by_cases e2 : f32Exp w2 = 255
  · by_cases g1 : f32Frac w1 = 0 <;> by_cases g2 : f32Frac w2 = 0 <;>
      simp [e1, e2, g1, g2] at h
    · exact f32_word_eq_of_fields h1 h2 h (e1.trans e2.symm) (g1.trans g2.symm)
    · exact f32_word_eq_of_fields h1 h2 h.1 (e1.trans e2.symm) h.2
  · by_cases g1 : f32Frac w1 = 0 <;> by_cases z2 : f32Exp w2 = 0 <;>
      simp [e1, e2, g1, z2] at h
  · by_cases z1 : f32Exp w1 = 0 <;> by_cases g2 : f32Frac w2 = 0 <;>
      simp [e1, e2, z1, g2] at h
  · by_cases z1 : f32Exp w1 = 0 <;> by_cases z2 : f32Exp w2 = 0 <;>
      simp [e1, e2, z1, z2] at h
    · exact f32_word_eq_of_fields h1 h2 h.1 (z1.trans z2.symm) h.2
    · exact absurd h.2 (f32_subnormal_lt_normal hb1)
    · exact absurd h.2.symm (f32_subnormal_lt_normal hb2)
    · obtain ⟨he, hf⟩ := f32_mag_inj hb1 hb2 h.2
      exact f32_word_eq_of_fields h1 h2 h.1 (by omega) hf

/-- Classification of decoded words: an all-ones exponent decodes to an
infinity or a NaN with sign and payload preserved, anything else to a
finite value.  Nothing is rejected. -/
lemma f32ValOfWord_class (w : Nat) :
    (f32Exp w = 255 → f32Frac w = 0 → f32ValOfWord w = FVal.inf (f32Sign w)) ∧
    (f32Exp w = 255 → f32Frac w ≠ 0 → f32ValOfWord w = FVal.nan (f32Sign w) (f32Frac w)) ∧
    (f32Exp w ≠ 255 → ∃ s m, f32ValOfWord w = FVal.finite s m) := by
  refine ⟨fun e g => by simp [f32ValOfWord, e, g], fun e g => by simp [f32ValOfWord, e, g], ?_⟩
  intro e
  by_cases z : f32Exp w = 0
  · exact ⟨f32Sign w, f32Frac w, by simp [f32ValOfWord, e, z]⟩
  · exact ⟨f32Sign w, (2 ^ 23 + f32Frac w) * 2 ^ (f32Exp w - 1), by simp [f32ValOfWord, e, z]⟩

/-- C4: every buffer of exactly `N_CH * 4` bytes decodes to exactly `N_CH`
values; the i-th value is the little-endian word assembled from bytes
4i..4i+3; its IEEE-754 content is taken as is — NaN and Inf bit patterns
pass through with sign and payload unchanged, finite patterns yield their
exact magnitude — and the value map collapses no two bit patterns, so the
widening to double is exact, with no magnitude validation or rounding. -/
theorem C4_decode_exact (buf : List Nat) (h : buf.length = N_CH * 4) :
    ∃ ws, onNotifyDecode buf = some ws ∧ ws.length = N_CH ∧
      (∀ i, i < N_CH → ∃ b0 b1 b2 b3,
        buf[4 * i]? = some b0 ∧ buf[4 * i + 1]? = some b1 ∧
        buf[4 * i + 2]? = some b2 ∧ buf[4 * i + 3]? = some b3 ∧
        ws[i]? = some (word32OfBytesLE b0 b1 b2 b3)) ∧
      (∀ w ∈ ws,
        (f32Exp w = 255 → f32Frac w = 0 → f32ValOfWord w = FVal.inf (f32Sign w)) ∧
        (f32Exp w = 255 → f32Frac w ≠ 0 → f32ValOfWord w = FVal.nan (f32Sign w) (f32Frac w)) ∧
        (f32Exp w ≠ 255 → ∃ s m, f32ValOfWord w = FVal.finite s m)) ∧
      (∀ w1 w2, w1 < 2 ^ 32 → w2 < 2 ^ 32 → f32ValOfWord w1 = f32ValOfWord w2 → w1 = w2) := by
  refine ⟨wordsOfBytesLE buf, by simp [onNotifyDecode, h], ?_, ?_, ?_, ?_⟩
  · rw [wordsOfBytesLE_length, h]
    rfl
  · intro i hi
    refine wordsOfBytesLE_get? i buf ?_
    rw [h]
    revert hi
    norm_num [N_CH]
    omega
  · intro w _
    exact f32ValOfWord_class w
  · exact fun w1 w2 h1 h2 => f32ValOfWord_inj h1 h2

/-- C4 witness: the decode contract evaluated on the concrete 48-byte buffer
`0, 1, ..., 47`. -/
theorem C4_witness :
    ∃ ws, onNotifyDecode (List.range 48) = some ws ∧ ws.length = N_CH ∧
      (∀ i, i < N_CH → ∃ b0 b1 b2 b3,
        (List.range 48)[4 * i]? = some b0 ∧ (List.range 48)[4 * i + 1]? = some b1 ∧
        (List.range 48)[4 * i + 2]? = some b2 ∧ (List.range 48)[4 * i + 3]? = some b3 ∧
        ws[i]? = some (word32OfBytesLE b0 b1 b2 b3)) ∧
      (∀ w ∈ ws,
        (f32Exp w = 255 → f32Frac w = 0 → f32ValOfWord w = FVal.inf (f32Sign w)) ∧
        (f32Exp w = 255 → f32Frac w ≠ 0 → f32ValOfWord w = FVal.nan (f32Sign w) (f32Frac w)) ∧
        (f32Exp w ≠ 255 → ∃ s m, f32ValOfWord w = FVal.finite s m)) ∧
      (∀ w1 w2, w1 < 2 ^ 32 → w2 < 2 ^ 32 → f32ValOfWord w1 = f32ValOfWord w2 → w1 = w2) :=
  C4_decode_exact (List.range 48) (by decide)

/-- One four-byte group packs back to itself. -/
lemma bytesOfWord32LE_word32 (b0 b1 b2 b3 : Nat) (h0 : b0 < 256) (h1 : b1 < 256)
    (h2 : b2 < 256) (h3 : b3 < 256) :
    bytesOfWord32LE (word32OfBytesLE b0 b1 b2 b3) = [b0, b1, b2, b3] := by
  simp only [bytesOfWord32LE, word32OfBytesLE, List.cons.injEq, and_true]
  norm_num
  refine ⟨?_, ?_, ?_, ?_⟩ <;> omega

/-- Decoding then re-encoding is the identity on well-formed byte strings
whose length is a multiple of four. -/
lemma packWordsLE_wordsOfBytesLE : ∀ bs : List Nat, bs.length % 4 = 0 →
    (∀ b ∈ bs, b < 256) → packWordsLE (wordsOfBytesLE bs) = bs
  | [], _, _ => rfl
  | [_], h, _ => by simp at h
  | [_, _], h, _ => by simp at h
  | [_, _, _], h, _ => by simp at h
  | b0 :: b1 :: b2 :: b3 :: rest, h, hb => by
    have hr : rest.length % 4 = 0 := by simp at h; omega
    have hbr : ∀ b ∈ rest, b < 256 := fun b hbm => hb b (by simp [hbm])
    have ih := packWordsLE_wordsOfBytesLE rest hr hbr
    simp only [wordsOfBytesLE, packWordsLE, List.flatMap_cons]
    rw [bytesOfWord32LE_word32 b0 b1 b2 b3 (hb b0 (by simp)) (hb b1 (by simp))
      (hb b2 (by simp)) (hb b3 (by simp))]
    simp only [packWordsLE] at ih
    simp [ih]

/-- C5: for every valid buffer (length `N_CH * 4`, bytes below 256),
decoding and then re-encoding each float's four-byte little-endian
representation reproduces the original buffer exactly. -/
theorem C5_roundtrip (buf : List Nat) (h : buf.length = N_CH * 4)
    (hb : ∀ b ∈ buf, b < 256) :
    ∃ ws, onNotifyDecode buf = some ws ∧ packWordsLE ws = buf := by
  refine ⟨wordsOfBytesLE buf, by simp [onNotifyDecode, h], ?_⟩
  exact packWordsLE_wordsOfBytesLE buf (by rw [h]; rfl) hb

/-- C5 witness: the round trip on the concrete buffer `0, 1, ..., 47`. -/
theorem C5_witness :
    ∃ ws, onNotifyDecode (List.range 48) = some ws ∧
      packWordsLE ws = List.range 48 :=
  C5_roundtrip (List.range 48) (by decide) (by decide)

/-- C6 witness: one valid frame is delivered to both sinks. -/
theorem C6_witness :
    (BLECollector.run ⟨[], 0⟩ [(3, v48)]).rows
      = [(3, v48)].map (fun p => (p.1 - 0, wordsOfBytesLE p.2)) ∧
    (onNotifyRun ⟨[], 0⟩ [(3, v48)]).published
      = [(3, v48)].flatMap (fun p => logFrame p.1 (wordsOfBytesLE p.2)) :=
  C6_order_preserved 0 [(3, v48)] (by intro p hp; simp [v48] at hp ⊢; simp [hp, N_CH])

/-- The handler `on_notify` on a valid frame: the thirteen messages are published. -/
lemma onNotify_valid (s : NotifyState) (now : ℚ) (data : List Nat)
    (h : data.length = N_CH * 4) :
    onNotify s now data
      = { s with published := s.published ++ logFrame now (wordsOfBytesLE data) } := by
  simp [onNotify, onNotifyDecode, h]

/-- No branch of `on_notify` ever changes `errCount`: the handler counts no
decode errors, whatever arrives. -/
lemma onNotify_errCount (s : NotifyState) (now : ℚ) (data : List Nat) :
    (onNotify s now data).errCount = s.errCount := by
  unfold onNotify
  cases onNotifyDecode data <;> rfl

/-- The field `errCount` is invariant under any run of the handler. -/
lemma onNotifyRun_errCount : ∀ (inputs : List (ℚ × List Nat)) (s : NotifyState),
    (onNotifyRun s inputs).errCount = s.errCount
  | [], _ => rfl
  | (now, data) :: rest, s => by
    rw [onNotifyRun, onNotifyRun_errCount rest, onNotify_errCount]

/-- C7. The claim says the decode error counter increments by exactly 1 when
a malformed 40-byte buffer arrives between two valid frames.  The code keeps
no such counter — the malformed frame is dropped by a bare `return` — so
after the three frames the handler has counted 0 decode errors, not 1. -/
theorem C7_counterexample :
    (onNotifyRun ⟨[], 0⟩ [(1, v48), (2, v40), (3, v48)]).errCount = 0 ∧
    (onNotifyRun ⟨[], 0⟩ [(1, v48), (2, v40), (3, v48)]).errCount ≠ 1 := by
  rw [onNotifyRun_errCount]
  exact ⟨rfl, by decide⟩

/-- C7 (amended): a malformed buffer between two valid frames is silently
ignored — no counter is incremented because none exists — and both valid
frames are still decoded and delivered in full to all channels. -/
theorem C7_no_counter (s : NotifyState) (t1 t2 t3 : ℚ) (d1 dm d2 : List Nat)
    (h1 : d1.length = N_CH * 4) (h2 : d2.length = N_CH * 4)
    (hm : dm.length ≠ N_CH * 4) :
    (onNotifyRun s [(t1, d1), (t2, dm), (t3, d2)]).published
      = s.published ++ logFrame t1 (wordsOfBytesLE d1) ++ logFrame t3 (wordsOfBytesLE d2) ∧
    (onNotifyRun s [(t1, d1), (t2, dm), (t3, d2)]).errCount = s.errCount := by
  refine ⟨?_, onNotifyRun_errCount _ _⟩
  simp only [onNotifyRun, onNotify_valid _ _ _ h1, onNotify_bad _ _ _ hm,
    onNotify_valid _ _ _ h2]

/-- C7 witness: the amended behavior at the concrete frame sequence
valid, 40-byte, valid. -/
theorem C7_witness :
    (onNotifyRun ⟨[], 0⟩ [(1, v48), (2, v40), (3, v48)]).published
      = ([] : List Msg) ++ logFrame 1 (wordsOfBytesLE v48) ++ logFrame 3 (wordsOfBytesLE v48) ∧
    (onNotifyRun ⟨[], 0⟩ [(1, v48), (2, v40), (3, v48)]).errCount = 0 :=
  C7_no_counter ⟨[], 0⟩ 1 2 3 v48 v40 v48 (by decide) (by decide) (by decide)

/-- The method `log_frame` when the external `Channel.log` calls can raise: `fail ch`
tells whether the `log` call of channel `ch` raises (`0` is the aggregated
raw channel, `ch ≥ 1` the scalar channel `ch<ch>`).  This models the scalar
loop of `log_frame`, starting at enumeration index `n`: the calls happen in
order, and the first raising call aborts the remaining iterations; the
result is the messages actually delivered and the channel whose error
propagated, if any.  The source has no error handling around these calls. -/
def logScalarsF (fail : Nat → Bool) (now : ℚ) (n : Nat) : List Nat → List Msg × Option Nat
  | [] => ([], none)
  | v :: vs =>
    if fail (n + 1) then ([], some (n + 1))
    else
      let r := logScalarsF fail now (n + 1) vs
      (Msg.scalar (n + 1) now v :: r.1, r.2)

/-- The method `log_frame` with fallible channels: the raw channel is logged first,
then the scalar channels in order; an exception from any `log` call
propagates out of `log_frame` (second component) after aborting the rest of
the loop. -/
def logFrameF (fail : Nat → Bool) (now : ℚ) (values : List Nat) : List Msg × Option Nat :=
  if fail 0 then ([], some 0)
  else
    let r := logScalarsF fail now 0 values
    (Msg.raw now values :: r.1, r.2)

/-- With no failing channel, the fallible loop delivers every scalar. -/
lemma logScalarsF_nofail (now : ℚ) : ∀ (vs : List Nat) (n : Nat),
    logScalarsF (fun _ => false) now n vs = (scalarMsgsFrom now n vs, none)
  | [], _ => rfl
  | v :: vs, n => by
    simp [logScalarsF, scalarMsgsFrom, logScalarsF_nofail now vs (n + 1)]

/-- With exactly channel `j` failing, the loop delivers the scalars strictly
before `j` and propagates `j`'s error. -/
lemma logScalarsF_hit (now : ℚ) (j : Nat) : ∀ (vs : List Nat) (n : Nat),
    n < j → j ≤ n + vs.length →
    logScalarsF (fun k => k == j) now n vs
      = ((scalarMsgsFrom now n vs).take (j - n - 1), some j)
  | [], n, hlt, hle => by simp at hle; omega
  | v :: vs, n, hlt, hle => by
    by_cases hj : n + 1 = j
    · subst hj
      simp [logScalarsF, scalarMsgsFrom]
    · have hlt' : n + 1 < j := by omega
      have hle' : j ≤ n + 1 + vs.length := by simp at hle; omega
      have ih := logScalarsF_hit now j vs (n + 1) hlt' hle'
      have hne : ((n + 1 : Nat) == j) = false := by simp [hj]
      have e : j - n - 1 = (j - n - 2) + 1 := by omega
      have e' : j - (n + 1) - 1 = j - n - 2 := by omega
      simp only [logScalarsF, hne, Bool.false_eq_true, if_false, ih, e', scalarMsgsFrom, e,
        List.take_succ_cons]

/-- C8. The claim says a hard error from one sink's accept leaves the
pipeline uncrashed and all other sinks unaffected.  In the code, when the
raw channel's `log` raises, the exception propagates out of `log_frame`
(the dispatch call crashes) and none of the twelve scalar channels receives
the frame. -/
theorem C8_counterexample :
    (logFrameF (fun k => k == 0) 0 (List.replicate 12 0)).2 = some 0 ∧
    (logFrameF (fun k => k == 0) 0 (List.replicate 12 0)).1 = [] :=
  ⟨rfl, rfl⟩

/-- C8 (amended): `log_frame` has no error handling — when exactly channel
`j` fails, the channels before `j` in emission order have already received
the frame, the channels after `j` receive nothing, and `j`'s error
propagates out of the dispatch call; there is no `Failed` marking and no
isolation.  When no channel fails, all thirteen messages are delivered. -/
theorem C8_error_propagates (now : ℚ) (values : List Nat) (j : Nat)
    (hlen : values.length = N_CH) (hj : j ≤ N_CH) :
    logFrameF (fun k => k == j) now values = ((logFrame now values).take j, some j) ∧
    logFrameF (fun _ => false) now values = (logFrame now values, none) := by
  constructor
  · rcases Nat.eq_zero_or_pos j with h0 | h0
    · subst h0
      simp [logFrameF, logFrame]
    · obtain ⟨i, rfl⟩ : ∃ i, j = i + 1 := ⟨j - 1, by omega⟩
      have hne : ((0 : Nat) == i + 1) = false := by simp
      have hhit := logScalarsF_hit now (i + 1) values 0 (by omega) (by omega)
      simp only [logFrameF, hne, Bool.false_eq_true, if_false, hhit, logFrame,
        List.take_succ_cons]
      simp
  · simp [logFrameF, logFrame, logScalarsF_nofail]

/-- C8 witness: channel 1 failing at the concrete all-zero frame — the raw
channel keeps its message, channels 2..12 receive nothing, the error
propagates; and the no-failure run delivers everything. -/
theorem C8_witness :
    logFrameF (fun k => k == 1) 0 (List.replicate 12 0)
      = ((logFrame 0 (List.replicate 12 0)).take 1, some 1) ∧
    logFrameF (fun _ => false) 0 (List.replicate 12 0)
      = (logFrame 0 (List.replicate 12 0), none) :=
  C8_error_propagates 0 (List.replicate 12 0) 1 (by decide) (by decide)

/-- An event in the lifecycle of one pipeline run. -/
inductive Ev where
  | subscribe
  | deliver (t : ℚ) (data : List Nat)
  | stopNotify
  | bridgeStop
  | disconnect
  | csvWrite
deriving DecidableEq, Repr

/-- Event trace of `connect_ble_and_stream` (`demo_ble_to_foxglove.py`) for
a run that receives `frames` before the interrupt: `start_notify`
(subscribe), the notifications, then the `finally:` block, which awaits
`client.stop_notify(CHR_UUID)` first and calls `bridge.stop()` second. -/
def streamTrace (frames : List (ℚ × List Nat)) : List Ev :=
  (Ev.subscribe :: frames.map fun p => Ev.deliver p.1 p.2)
    ++ Ev.stopNotify :: [Ev.bridgeStop]

/-- Event trace of `main` (`demo_bluetooth.py`): subscribe, the
notifications, then the `finally:` block's `stop_notify`, the client
disconnect on leaving `async with`, and only then the CSV write of the
collected rows. -/
def collectTrace (frames : List (ℚ × List Nat)) : List Ev :=
  (Ev.subscribe :: frames.map fun p => Ev.deliver p.1 p.2)
    ++ Ev.stopNotify :: [Ev.disconnect, Ev.csvWrite]

/-- In a trace with a unique `stopNotify`, its index is the length of the
part before it. -/
lemma stopNotify_index {pre post : List Ev} (hpre : Ev.stopNotify ∉ pre)
    (hpost : Ev.stopNotify ∉ post) :
    ∀ i : Nat, (pre ++ Ev.stopNotify :: post)[i]? = some Ev.stopNotify →
    i = pre.length := by
  induction pre with
  | nil =>
    intro i h
    cases i with
    | zero => rfl
    | succ n =>
      simp only [List.nil_append, List.getElem?_cons_succ] at h
      exact absurd (List.getElem?_mem h) hpost
  | cons e pre ih =>
    intro i h
    cases i with
    | zero =>
      simp only [List.cons_append, List.getElem?_cons_zero, Option.some.injEq] at h
      exact absurd (h ▸ List.mem_cons_self e pre) hpre
    | succ n =>
      simp only [List.cons_append, List.getElem?_cons_succ] at h
      have := ih (fun hm => hpre (List.mem_cons_of_mem e hm)) n h
      simp [this]

/-- In a trace of the form `pre ++ stopNotify :: post` where `post` holds
no delivery and no second `stopNotify`, every delivery happens strictly
before the `stopNotify`, and the events after it are exactly `post`. -/
lemma shutdown_order {pre post : List Ev} (hpre : Ev.stopNotify ∉ pre)
    (hpost : Ev.stopNotify ∉ post) (hdel : ∀ t d, Ev.deliver t d ∉ post)
    (i : Nat) (h : (pre ++ Ev.stopNotify :: post)[i]? = some Ev.stopNotify) :
    (∀ j t d, (pre ++ Ev.stopNotify :: post)[j]? = some (Ev.deliver t d) → j < i) ∧
    (∀ k, (pre ++ Ev.stopNotify :: post)[i + 1 + k]? = post[k]?) := by
  obtain rfl : i = pre.length := stopNotify_index hpre hpost i h
  constructor
  · intro j t d hj
    rcases Nat.lt_or_ge j pre.length with hlt | hge
    · exact hlt
    · exfalso
      rw [List.getElem?_append_right hge] at hj
      rcases hk : j - pre.length with - | k
      · rw [hk] at hj; simp at hj
      · rw [hk, List.getElem?_cons_succ] at hj
        exact absurd (List.getElem?_mem hj) (hdel t d)
  · intro k
    rw [List.getElem?_append_right (by omega)]
    have e : pre.length + 1 + k - pre.length = k + 1 := by omega
    rw [e, List.getElem?_cons_succ]

/-- C9: in both scripts, once `stop_notify` occurs in the run's event trace,
every frame delivery lies strictly before it (no sink observes anything
after the transport is unsubscribed), and the sink resources are released
only afterwards — `bridge.stop()` is the very next event in the Foxglove
script, and the bluetooth script disconnects and then writes the CSV. -/
theorem C9_shutdown_order (frames : List (ℚ × List Nat)) (i : Nat) :
    ((streamTrace frames)[i]? = some Ev.stopNotify →
      (∀ j t d, (streamTrace frames)[j]? = some (Ev.deliver t d) → j < i) ∧
      (streamTrace frames)[i + 1]? = some Ev.bridgeStop) ∧
    ((collectTrace frames)[i]? = some Ev.stopNotify →
      (∀ j t d, (collectTrace frames)[j]? = some (Ev.deliver t d) → j < i) ∧
      (collectTrace frames)[i + 1]? = some Ev.disconnect ∧
      (collectTrace frames)[i + 2]? = some Ev.csvWrite) := by
  constructor
  · intro h
    have hpre : Ev.stopNotify ∉ (Ev.subscribe :: frames.map fun p => Ev.deliver p.1 p.2) := by
      simp
    have hmain := shutdown_order hpre (by simp) (by simp) i h
    refine ⟨hmain.1, ?_⟩
    exact hmain.2 0
  · intro h
    have hpre : Ev.stopNotify ∉ (Ev.subscribe :: frames.map fun p => Ev.deliver p.1 p.2) := by
      simp
    have hmain := shutdown_order hpre (by simp) (by simp) i h
    refine ⟨hmain.1, ?_, ?_⟩
    · exact hmain.2 0
    · exact hmain.2 1

/-- C9 witness: in the concrete one-frame run, the delivery (index 1) lies
before `stop_notify` (index 2) and `bridge.stop()` follows immediately. -/
theorem C9_witness :
    (1 < 2 ∧ (streamTrace [(1, v48)])[3]? = some Ev.bridgeStop) := by
  have h := (C9_shutdown_order [(1, v48)] 2).1 (by decide)
  exact ⟨h.1 1 1 v48 (by decide), h.2⟩

/-- The scalar loop emits one message per channel value. -/
lemma scalarMsgsFrom_length (now : ℚ) : ∀ (vs : List Nat) (n : Nat),
    (scalarMsgsFrom now n vs).length = vs.length
  | [], _ => rfl
  | _ :: vs, n => by
    simp [scalarMsgsFrom, scalarMsgsFrom_length now vs (n + 1)]

/-- Every scalar message of one frame carries the single clock reading. -/
lemma scalarMsgsFrom_time (now : ℚ) : ∀ (vs : List Nat) (n : Nat) (m : Msg),
    m ∈ scalarMsgsFrom now n vs → msgTime m = now
  | v :: vs, n, m, hm => by
    rcases List.mem_cons.1 hm with h | h
    · rw [h]; rfl
    · exact scalarMsgsFrom_time now vs (n + 1) m h

/-- The i-th scalar message carries the i-th channel value on channel
`n + i + 1`. -/
lemma scalarMsgsFrom_get? (now : ℚ) : ∀ (vs : List Nat) (n i : Nat),
    (scalarMsgsFrom now n vs)[i]? = (vs[i]?).map (fun v => Msg.scalar (n + i + 1) now v)
  | [], n, i => by simp [scalarMsgsFrom]
  | v :: vs, n, 0 => by simp [scalarMsgsFrom]
  | v :: vs, n, i + 1 => by
    have ih := scalarMsgsFrom_get? now vs (n + 1) i
    have e : n + 1 + i + 1 = n + (i + 1) + 1 := by omega
    simp only [scalarMsgsFrom, List.getElem?_cons_succ, ih, e]

/-- C10: `log_frame` reads the clock exactly once per frame — the single
reading `now` is the only time source in the model of the call — so all
`1 + N_CH = 13` messages of one frame (the aggregated raw message first,
then the twelve scalars) carry the identical timestamp, and the scalar
message at position i+1 is on channel i+1 and carries exactly the i-th
decoded value. -/
theorem C10_single_timestamp (now : ℚ) (values : List Nat)
    (h : values.length = N_CH) :
    (logFrame now values).length = 1 + N_CH ∧
    (∀ m ∈ logFrame now values, msgTime m = now) ∧
    (logFrame now values)[0]? = some (Msg.raw now values) ∧
    (∀ i v, values[i]? = some v →
      (logFrame now values)[i + 1]? = some (Msg.scalar (i + 1) now v)) := by
  refine ⟨?_, ?_, ?_, ?_⟩
  · simp [logFrame, scalarMsgsFrom_length, h]
    omega
  · intro m hm
    rcases List.mem_cons.1 hm with hr | hs
    · rw [hr]; rfl
    · exact scalarMsgsFrom_time now values 0 m hs
  · simp [logFrame]
  · intro i v hv
    have := scalarMsgsFrom_get? now values 0 i
    simp only [logFrame, List.getElem?_cons_succ, this, hv, Option.map_some]
    simp

/-- C10 witness: the contract at the concrete frame `0, 1, ..., 11` with
clock reading 7. -/
theorem C10_witness :
    (logFrame 7 (List.range 12)).length = 1 + N_CH ∧
    (∀ m ∈ logFrame 7 (List.range 12), msgTime m = 7) ∧
    (logFrame 7 (List.range 12))[0]? = some (Msg.raw 7 (List.range 12)) ∧
    (∀ i v, (List.range 12)[i]? = some v →
      (logFrame 7 (List.range 12))[i + 1]? = some (Msg.scalar (i + 1) 7 v)) :=
  C10_single_timestamp 7 (List.range 12) (by decide)
